import Mathlib

/-!
Verification development for the GrowthMind repository (src/app.py).

The file shallowly embeds the pieces of app.py that the specification's
claims are about:

- the response-normalization pipeline (fence stripping followed by a strict
  JSON parse, lines 51-63 and 252-266 of app.py), including an executable
  embedding of Python's json.loads on character lists;
- calculate_roi_projection (lines 65-88), including the regex search for a
  bracketed numeric array;
- call_openai (lines 10-23), with the credential check and the absence of
  any exception handling modelled explicitly;
- the action-selection session-state handler (lines 330-334).

Modelling conventions: Python strings are List Char; JSON numbers are
modelled as rationals (Python's int/float distinction is collapsed: the
claims only compare parses of fixed decimal literals, where the rational
value is faithful); a JSON object is an association list keeping member
order; the \uXXXX string escape is mapped through Char.ofNat (lone
surrogates, which Lean's Char cannot represent, fall back to Char.ofNat's
default — no claim exercises them).  Python's str.strip() is modelled on
the six ASCII whitespace characters it strips; the json module's own
whitespace set is exactly space, tab, newline, carriage return.
-/

/-- The whitespace characters skipped by Python's json scanner
(json.decoder: space, tab, newline, carriage return). -/
def jsonWs (c : Char) : Bool :=
  c = ' ' || c = '\t' || c = '\n' || c = '\r'

/-- The ASCII whitespace characters stripped by Python's str.strip()
(space, tab, newline, carriage return, vertical tab, form feed). -/
def pyWs (c : Char) : Bool :=
  c = ' ' || c = '\t' || c = '\n' || c = '\r' || c = '\x0b' || c = '\x0c'

/-- Skip leading json whitespace, as the json scanner does between tokens. -/
def skipWs (l : List Char) : List Char := l.dropWhile jsonWs

/-- Embedding of Python str.strip(): drop ASCII whitespace from both ends
(drop from the left, then from the right). -/
def pyStrip (l : List Char) : List Char :=
  (l.dropWhile pyWs).rdropWhile pyWs

/-- The backtick character, used by the fence markers. -/
def btick : Char := Char.ofNat 96

/-- JSON values as produced by json.loads: objects are association lists in
member order, numbers are rationals, and the non-standard constants NaN,
Infinity and -Infinity accepted by Python's json.loads get their own
constructors. -/
inductive JVal where
  | null : JVal
  | bool (b : Bool) : JVal
  | num (q : ℚ) : JVal
  | str (s : List Char) : JVal
  | arr (xs : List JVal) : JVal
  | obj (kvs : List (List Char × JVal)) : JVal
  | nan : JVal
  | inf : JVal
  | negInf : JVal

mutual

/-- Boolean equality on JSON values (DecidableEq is not derivable for this
nested inductive, so it is defined by hand and proved sound below). -/
def JVal.beq : JVal → JVal → Bool
  | .null, .null => true
  | .bool a, .bool b => decide (a = b)
  | .num a, .num b => decide (a = b)
  | .str a, .str b => decide (a = b)
  | .arr xs, .arr ys => JVal.beqArr xs ys
  | .obj ps, .obj qs => JVal.beqObj ps qs
  | .nan, .nan => true
  | .inf, .inf => true
  | .negInf, .negInf => true
  | _, _ => false

/-- Boolean equality on lists of JSON values. -/
def JVal.beqArr : List JVal → List JVal → Bool
  | [], [] => true
  | x :: xs, y :: ys => JVal.beq x y && JVal.beqArr xs ys
  | _, _ => false

/-- Boolean equality on association lists of JSON object members. -/
def JVal.beqObj : List (List Char × JVal) → List (List Char × JVal) → Bool
  | [], [] => true
  | (k, v) :: ps, (k2, v2) :: qs =>
    decide (k = k2) && JVal.beq v v2 && JVal.beqObj ps qs
  | _, _ => false

end

/-- Value of a decimal digit character. -/
def digitVal (c : Char) : Nat := c.toNat - '0'.toNat

/-- Natural number denoted by a list of decimal digit characters. -/
def digitsToNat (l : List Char) : Nat :=
  l.foldl (fun acc c => 10 * acc + digitVal c) 0

/-- Value of a hexadecimal digit character, if it is one. -/
def hexVal (c : Char) : Option Nat :=
  if c.isDigit then some (c.toNat - '0'.toNat)
  else if 'a' ≤ c ∧ c ≤ 'f' then some (c.toNat - 'a'.toNat + 10)
  else if 'A' ≤ c ∧ c ≤ 'F' then some (c.toNat - 'A'.toNat + 10)
  else none

/-- The character denoted by a single-character JSON string escape. -/
def escChar (c : Char) : Option Char :=
  if c = '"' then some '"'
  else if c = '\\' then some '\\'
  else if c = '/' then some '/'
  else if c = 'b' then some '\x08'
  else if c = 'f' then some '\x0c'
  else if c = 'n' then some '\n'
  else if c = 'r' then some '\r'
  else if c = 't' then some '\t'
  else none

/-- The integer digits of a JSON number token starting at l, per the json
NUMBER_RE: a single 0, or a nonzero digit followed by any digits.  Returns
the digit characters and the rest.  Assumes the head of l is a digit. -/
def intDigits (l : List Char) : List Char × List Char :=
  match l with
  | c :: rest =>
    if c = '0' then (['0'], rest)
    else ((c :: rest).takeWhile Char.isDigit, (c :: rest).dropWhile Char.isDigit)
  | [] => ([], [])

/-- The fractional part of a JSON number token: a dot followed by at least
one digit; otherwise nothing is consumed (the regex group is optional). -/
def fracDigits (l : List Char) : List Char × List Char :=
  match l with
  | c :: rest =>
    if c = '.' then
      if (rest.takeWhile Char.isDigit).isEmpty then ([], l)
      else (rest.takeWhile Char.isDigit, rest.dropWhile Char.isDigit)
    else ([], l)
  | [] => ([], l)

/-- The exponent part of a JSON number token: e or E, an optional sign and
at least one digit; otherwise nothing is consumed. -/
def expDigits (l : List Char) : Bool × List Char × List Char :=
  match l with
  | e :: rest =>
    if e = 'e' ∨ e = 'E' then
      match rest with
      | s :: rest2 =>
        if s = '+' ∨ s = '-' then
          if (rest2.takeWhile Char.isDigit).isEmpty then (false, [], l)
          else (s = '-', rest2.takeWhile Char.isDigit, rest2.dropWhile Char.isDigit)
        else
          if (rest.takeWhile Char.isDigit).isEmpty then (false, [], l)
          else (false, rest.takeWhile Char.isDigit, rest.dropWhile Char.isDigit)
      | [] => (false, [], l)
    else (false, [], l)
  | [] => (false, [], l)

/-- The rational value of a parsed number from its pieces: sign, integer
digits, fraction digits and a signed decimal exponent.  Stated with mkRat
over integer arithmetic so that concrete parses reduce by decide. -/
def numValue (neg : Bool) (ip fp : List Char) (expNeg : Bool) (ep : List Char) : ℚ :=
  let mant : Nat := digitsToNat ip * 10 ^ fp.length + digitsToNat fp
  let mantI : Int := if neg then -(mant : Int) else (mant : Int)
  let epN : Nat := digitsToNat ep
  if expNeg then mkRat mantI (10 ^ (fp.length + epN))
  else mkRat (mantI * 10 ^ epN) (10 ^ fp.length)

/-- The body of the number scan after the optional minus sign has been
consumed: integer part, optional fraction, optional exponent. -/
def parseNumBody (neg : Bool) (l1 : List Char) : Option (ℚ × List Char) :=
  match l1 with
  | [] => none
  | d :: _ =>
    if d.isDigit then
      let (ip, r1) := intDigits l1
      let (fp, r2) := fracDigits r1
      let (expNeg, ep, r3) := expDigits r2
      some (numValue neg ip fp expNeg ep, r3)
    else none

/-- Embedding of the json module's number scan (NUMBER_RE): optional minus,
integer part without leading zeros, optional fraction, optional exponent.
Returns the rational value and the unconsumed rest, or none when no number
token starts here. -/
def parseNum (l : List Char) : Option (ℚ × List Char) :=
  match l with
  | [] => none
  | c :: cs =>
    if c = '-' then parseNumBody true cs
    else parseNumBody false (c :: cs)

mutual

/-- Embedding of the json scanner's value dispatch (scan_once): look at the
head character and parse an object, array, string, literal constant or
number.  No surrounding whitespace is consumed here; callers skip it.  The
fuel argument only bounds recursion depth; loads supplies more than enough
of it for its input. -/
def parseValue : Nat → List Char → Option (JVal × List Char)
  | 0, _ => none
  | _ + 1, [] => none
  | f + 1, c :: cs =>
    if c = '{' then
      match parseObjBody f (skipWs cs) with
      | some (kvs, r) => some (.obj kvs, r)
      | none => none
    else if c = '[' then
      match parseArrBody f (skipWs cs) with
      | some (xs, r) => some (.arr xs, r)
      | none => none
    else if c = '"' then
      match parseStrBody f cs with
      | some (s, r) => some (.str s, r)
      | none => none
    else if c = 't' then
      match cs with
      | 'r' :: 'u' :: 'e' :: r => some (.bool true, r)
      | _ => none
    else if c = 'f' then
      match cs with
      | 'a' :: 'l' :: 's' :: 'e' :: r => some (.bool false, r)
      | _ => none
    else if c = 'n' then
      match cs with
      | 'u' :: 'l' :: 'l' :: r => some (.null, r)
      | _ => none
    else if c = 'N' then
      match cs with
      | 'a' :: 'N' :: r => some (.nan, r)
      | _ => none
    else if c = 'I' then
      match cs with
      | 'n' :: 'f' :: 'i' :: 'n' :: 'i' :: 't' :: 'y' :: r => some (.inf, r)
      | _ => none
    else if c = '-' then
      match cs with
      | 'I' :: 'n' :: 'f' :: 'i' :: 'n' :: 'i' :: 't' :: 'y' :: r => some (.negInf, r)
      | _ =>
        match parseNum (c :: cs) with
        | some (q, r) => some (.num q, r)
        | none => none
    else if c.isDigit then
      match parseNum (c :: cs) with
      | some (q, r) => some (.num q, r)
      | none => none
    else none

/-- Object body after the opening brace, whitespace already skipped: either
an immediate closing brace or a member list. -/
def parseObjBody : Nat → List Char → Option (List (List Char × JVal) × List Char)
  | 0, _ => none
  | f + 1, l =>
    match l with
    | '}' :: r => some ([], r)
    | _ => parseMembers f l

/-- One or more object members, the head expected to be a key string;
whitespace is skipped around the colon and after commas as the json
scanner does. -/
def parseMembers : Nat → List Char → Option (List (List Char × JVal) × List Char)
  | 0, _ => none
  | f + 1, l =>
    match l with
    | '"' :: cs =>
      match parseStrBody f cs with
      | some (key, r1) =>
        match skipWs r1 with
        | ':' :: r2 =>
          match parseValue f (skipWs r2) with
          | some (v, r3) =>
            match skipWs r3 with
            | ',' :: r4 =>
              match parseMembers f (skipWs r4) with
              | some (kvs, r5) => some ((key, v) :: kvs, r5)
              | none => none
            | '}' :: r4 => some ([(key, v)], r4)
            | _ => none
          | none => none
        | _ => none
      | none => none
    | _ => none

/-- Array body after the opening bracket, whitespace already skipped:
either an immediate closing bracket or an element list. -/
def parseArrBody : Nat → List Char → Option (List JVal × List Char)
  | 0, _ => none
  | f + 1, l =>
    match l with
    | ']' :: r => some ([], r)
    | _ => parseElems f l

/-- One or more array elements separated by commas. -/
def parseElems : Nat → List Char → Option (List JVal × List Char)
  | 0, _ => none
  | f + 1, l =>
    match parseValue f l with
    | some (v, r1) =>
      match skipWs r1 with
      | ',' :: r2 =>
        match parseElems f (skipWs r2) with
        | some (xs, r3) => some (v :: xs, r3)
        | none => none
      | ']' :: r2 => some ([v], r2)
      | _ => none
    | none => none

/-- String body after the opening quote: ordinary characters up to the
closing quote, backslash escapes, \uXXXX escapes via Char.ofNat, raw
control characters rejected (strict mode). -/
def parseStrBody : Nat → List Char → Option (List Char × List Char)
  | 0, _ => none
  | _ + 1, [] => none
  | f + 1, c :: cs =>
    if c = '"' then some ([], cs)
    else if c = '\\' then
      match cs with
      | 'u' :: h1 :: h2 :: h3 :: h4 :: rest =>
        match hexVal h1, hexVal h2, hexVal h3, hexVal h4 with
        | some a, some b, some g, some d =>
          match parseStrBody f rest with
          | some (s, r) => some (Char.ofNat (((a * 16 + b) * 16 + g) * 16 + d) :: s, r)
          | none => none
        | _, _, _, _ => none
      | e :: rest =>
        match escChar e with
        | some ec =>
          match parseStrBody f rest with
          | some (s, r) => some (ec :: s, r)
          | none => none
        | none => none
      | [] => none
    else if c.toNat < 32 then none
    else
      match parseStrBody f cs with
      | some (s, r) => some (c :: s, r)
      | none => none

end

/-- Embedding of json.loads: skip leading whitespace, parse one value, and
require that only whitespace follows it; any failure raises JSONDecodeError
in Python, modelled as none.  The fuel bound is generous: the parser spends
at most a few units of fuel per consumed character. -/
def loads (l : List Char) : Option JVal :=
  match parseValue (8 * l.length + 8) (skipWs l) with
  | some (v, r) => if skipWs r = [] then some v else none
  | none => none

/-- The characters at which the value dispatch of parseValue can succeed:
brace, bracket, quote, the literal starts t/f/n/N/I, minus, digits.  Any
other head character makes parseValue fail immediately. -/
def starterChar (c : Char) : Bool :=
  c = '{' || c = '[' || c = '"' || c = 't' || c = 'f' || c = 'n' ||
  c = 'N' || c = 'I' || c = '-' || c.isDigit

/-- The characters a successfully consumed JSON value can end with: a
digit (numbers), e (true/false), l (null), N (NaN), y (Infinity), a quote
(strings), a closing brace or bracket. -/
def endOKChar (c : Char) : Bool :=
  c.isDigit || c = 'e' || c = 'l' || c = 'N' || c = 'y' || c = '"' ||
  c = '}' || c = ']'

/-- The opening fence marker tested for by app.py (lines 52 and 254). -/
def jsonFence : List Char := "```json".data

/-- The bare three-character fence marker (lines 54-55 and 256-257). -/
def fence3 : List Char := "```".data

/-- Embedding of Python str.replace(pat, "", 1): remove the first
occurrence of pat, if any. -/
def removeFirstOcc (pat : List Char) : List Char → List Char
  | [] => []
  | c :: cs =>
    if pat.isPrefixOf (c :: cs) then (c :: cs).drop pat.length
    else c :: removeFirstOcc pat cs

/-- Python s[:-n]: drop the last n characters. -/
def dropRightN (n : Nat) (l : List Char) : List Char := l.take (l.length - n)

/-- Step one of the response cleaning (app.py lines 52-53 and 254-255): if
the text starts with the tagged opening fence, remove its first occurrence. -/
def stripOpenFence (l : List Char) : List Char :=
  if jsonFence.isPrefixOf l then removeFirstOcc jsonFence l else l

/-- Step two (app.py lines 54-55 and 256-257): if the text ends with a bare
fence, drop the last three characters. -/
def stripCloseFence (l : List Char) : List Char :=
  if fence3.isSuffixOf l then dropRightN 3 l else l

/-- The response-cleaning steps of app.py (lines 51-56 and 252-258): the
two fence checks in order, then a final strip of surrounding whitespace. -/
def stripFences (l : List Char) : List Char :=
  pyStrip (stripCloseFence (stripOpenFence l))

/-- Outcome of the normalization pipeline: a parsed value, or the original
raw text preserved for display (app.py lines 263-266 show the raw response
with st.code when json.loads raises). -/
inductive NormResult where
  | parsed (v : JVal)
  | unparsed (raw : List Char)

/-- The response normalizer of app.py (lines 51-63 and 252-266): clean the
fences, attempt a strict parse, and on failure report the original raw
text; no further fallback exists in the code.  (Namespaced because Mathlib
already has a declaration called normalize.) -/
def App.normalize (raw : List Char) : NormResult :=
  match loads (stripFences raw) with
  | some v => .parsed v
  | none => .unparsed raw

/-- The character class of the ROI extraction regex, the part inside
r'\[[\d\., ]+\]' of app.py line 79: digits, dot, comma, space. -/
def numClass (c : Char) : Bool :=
  c.isDigit || c = '.' || c = ',' || c = ' '

/-- Try the regex r'\[[\d\., ]+\]' anchored at the current position: an
opening bracket, a nonempty run of class characters, then a closing
bracket.  Because the closing bracket is not in the class, backtracking
inside the greedy run can never produce a different match, so matching the
maximal run is faithful to the regex engine. -/
def matchArrAt (l : List Char) : Option (List Char) :=
  match l with
  | c :: rest =>
    if c = '[' then
      let body := rest.takeWhile numClass
      if body.isEmpty then none
      else if (rest.dropWhile numClass).head? = some ']' then
        some ('[' :: body ++ [']'])
      else none
    else none
  | [] => none

/-- Embedding of re.search for the pattern above: scan left to right and
return the leftmost match (match.group(0)), if any. -/
def findNumArr : List Char → Option (List Char)
  | [] => none
  | c :: cs =>
    match matchArrAt (c :: cs) with
    | some m => some m
    | none => findNumArr cs

/-- The hard-coded default fallback sequence of app.py lines 86 and 88:
the values 0.5, 1.0, 1.5, ..., 6.0 as rationals. -/
def defaultROI : List JVal :=
  [.num (mkRat 1 2), .num 1, .num (mkRat 3 2), .num 2, .num (mkRat 5 2), .num 3,
   .num (mkRat 7 2), .num 4, .num (mkRat 9 2), .num 5, .num (mkRat 11 2), .num 6]

/-- Embedding of calculate_roi_projection (app.py lines 65-88) from the
regex step onward: search the raw response for a bracketed numeric array;
if found, json.loads the matched text and return the result, falling back
to the fixed default when the match does not parse; with no match, return
the default.  The function performs no length or shape validation. -/
def calculate_roi_projection (response : List Char) : JVal :=
  match findNumArr response with
  | some m =>
    match loads m with
    | some v => v
    | none => .arr defaultROI
  | none => .arr defaultROI

/-- The regex-independent statement that a text contains a bracketed
numeric array: some substring is an opening bracket, a nonempty run of
digits, dots, commas and spaces, and a closing bracket. -/
def hasNumArr (s : List Char) : Prop :=
  ∃ pre body suf, s = pre ++ '[' :: (body ++ ']' :: suf) ∧
    body ≠ [] ∧ ∀ c ∈ body, numClass c = true

/-- All contiguous substrings of a character list (each prefix of each
suffix), used to state decidable no-valid-JSON-substring facts. -/
def infixes (s : List Char) : List (List Char) :=
  s.tails.flatMap List.inits

/-- The errors the completion service can raise during a call: transport,
quota or model failures (spec taxonomy ServiceError). -/
inductive ServiceError where
  | transport : ServiceError
  | quota : ServiceError
  | model : ServiceError
deriving DecidableEq

/-- What a single invocation of call_openai does, observably: halt the
script after showing the missing-credential error (st.error plus st.stop,
app.py lines 11-13), let a service exception propagate uncaught out of the
function (there is no try/except in lines 10-23), or return the stripped
response text. -/
inductive CallResult where
  | configErrorShown : CallResult
  | raised (e : ServiceError) : CallResult
  | ok (text : List Char) : CallResult
deriving DecidableEq

/-- Python truthiness of the api_key attribute: None and the empty string
are falsy. -/
def keyTruthy : Option (List Char) → Bool
  | none => false
  | some k => !k.isEmpty

/-- Embedding of call_openai (app.py lines 10-23).  The completion service
is modelled as the outcome the network call would have: either a raised
ServiceError or a response text.  The code checks the credential first and
stops; otherwise it performs the call with no exception handling, so a
service error propagates, and a successful response is stripped and
returned. -/
def call_openai (apiKey : Option (List Char))
    (service : Except ServiceError (List Char)) : CallResult :=
  if !keyTruthy apiKey then .configErrorShown
  else
    match service with
    | .error e => .raised e
    | .ok text => .ok (pyStrip text)

/-- The session state fields of app.py lines 130-139 that the action
selection handler touches. -/
structure SessionState where
  results : Option JVal
  implementation_plan : Option JVal
  competitive_analysis : Option JVal
  selected_action : Option (List Char)
  roi_data : Option JVal

/-- Embedding of the action selection handler (app.py lines 330-334): when
the newly selected action differs from the stored one, store it and clear
the three generated artifacts; otherwise leave the state untouched. -/
def onActionSelect (st : SessionState) (selected : List Char) : SessionState :=
  if some selected ≠ st.selected_action then
    { st with selected_action := some selected,
              implementation_plan := none,
              competitive_analysis := none,
              roi_data := none }
  else st

/-! ## Decidability of JSON value equality -/

theorem jval_beq_iff_aux :
    ∀ n : Nat,
      (∀ a b : JVal, sizeOf a ≤ n → (JVal.beq a b = true ↔ a = b)) ∧
      (∀ xs ys : List JVal, sizeOf xs ≤ n → (JVal.beqArr xs ys = true ↔ xs = ys)) ∧
      (∀ ps qs : List (List Char × JVal), sizeOf ps ≤ n →
        (JVal.beqObj ps qs = true ↔ ps = qs)) := by
  intro n
  induction n using Nat.strong_induction_on with
  | _ n ih =>
    refine ⟨?_, ?_, ?_⟩
    · intro a b hle
      cases a <;> cases b <;> simp [JVal.beq]
      case arr.arr xs ys =>
        have hx : sizeOf xs < n := by
          have := hle; simp [JVal.arr.sizeOf_spec] at this; omega
        exact (ih _ hx).2.1 xs ys (le_refl _)
      case obj.obj ps qs =>
        have hp : sizeOf ps < n := by
          have := hle; simp [JVal.obj.sizeOf_spec] at this; omega
        exact (ih _ hp).2.2 ps qs (le_refl _)
    · intro xs ys hle
      cases xs <;> cases ys <;> simp [JVal.beqArr]
      case cons.cons x xs y ys =>
        have h1 : sizeOf x < n := by
          have := hle; simp [List.cons.sizeOf_spec] at this; omega
        have h2 : sizeOf xs < n := by
          have := hle; simp [List.cons.sizeOf_spec] at this; omega
        exact and_congr ((ih _ h1).1 x y (le_refl _)) ((ih _ h2).2.1 xs ys (le_refl _))
    · intro ps qs hle
      cases ps <;> cases qs <;> simp [JVal.beqObj]
      case cons.cons p ps q qs =>
        obtain ⟨k, v⟩ := p
        obtain ⟨k2, v2⟩ := q
        have h1 : sizeOf v < n := by
          have := hle
          simp [List.cons.sizeOf_spec, Prod.mk.sizeOf_spec] at this
          omega
        have h2 : sizeOf ps < n := by
          have := hle; simp [List.cons.sizeOf_spec] at this; omega
        simp [JVal.beqObj]
        exact and_congr
          (and_congr Iff.rfl ((ih _ h1).1 v v2 (le_refl _)))
          ((ih _ h2).2.2 ps qs (le_refl _))

instance : DecidableEq JVal := fun a b =>
  decidable_of_iff (JVal.beq a b = true) ((jval_beq_iff_aux (sizeOf a)).1 a b (le_refl _))

instance : DecidableEq NormResult := fun a b =>
  match a, b with
  | .parsed v, .parsed w => decidable_of_iff (v = w) (by simp)
  | .parsed _, .unparsed _ => isFalse (by simp)
  | .unparsed _, .parsed _ => isFalse (by simp)
  | .unparsed r, .unparsed s => decidable_of_iff (r = s) (by simp)

/-! ## C6: missing credential halts before any network call -/

/-- C6: whenever no API credential is configured, call_openai shows the
fatal configuration error and stops the script, whatever the completion
service would have done: the outcome is the same for every service
behavior, so the network call is never reached. -/
theorem c6_missing_credential_halts (service : Except ServiceError (List Char)) :
    call_openai none service = .configErrorShown := rfl

/-! ## C8: selecting a different action clears the generated artifacts -/

/-- C8: when the user selects a prioritized action different from the
stored one, the handler clears the ImplementationPlan, CompetitiveAnalysis
and ROIProjection artifacts and leaves the StrategyPlan results unchanged. -/
theorem c8_action_change_clears_artifacts (st : SessionState) (selected : List Char)
    (h : some selected ≠ st.selected_action) :
    (onActionSelect st selected).implementation_plan = none ∧
    (onActionSelect st selected).competitive_analysis = none ∧
    (onActionSelect st selected).roi_data = none ∧
    (onActionSelect st selected).results = st.results := by
  unfold onActionSelect
  rw [if_pos h]
  exact ⟨rfl, rfl, rfl, rfl⟩

/-- Witness for C8 at a concrete session state whose selected action
differs from the newly chosen one. -/
theorem c8_action_change_clears_artifacts_witness :
    some ("expand catering".data) ≠
      (SessionState.mk (some (.str ("plan".data))) (some (.obj []))
        (some (.obj [])) (some ("raise prices".data)) (some (.arr []))).selected_action ∧
    ((onActionSelect
        (SessionState.mk (some (.str ("plan".data))) (some (.obj []))
          (some (.obj [])) (some ("raise prices".data)) (some (.arr [])))
        ("expand catering".data)).implementation_plan = none ∧
      (onActionSelect
        (SessionState.mk (some (.str ("plan".data))) (some (.obj []))
          (some (.obj [])) (some ("raise prices".data)) (some (.arr [])))
        ("expand catering".data)).competitive_analysis = none ∧
      (onActionSelect
        (SessionState.mk (some (.str ("plan".data))) (some (.obj []))
          (some (.obj [])) (some ("raise prices".data)) (some (.arr [])))
        ("expand catering".data)).roi_data = none ∧
      (onActionSelect
        (SessionState.mk (some (.str ("plan".data))) (some (.obj []))
          (some (.obj [])) (some ("raise prices".data)) (some (.arr [])))
        ("expand catering".data)).results =
        (SessionState.mk (some (.str ("plan".data))) (some (.obj []))
          (some (.obj [])) (some ("raise prices".data)) (some (.arr []))).results) :=
  ⟨by decide, c8_action_change_clears_artifacts _ _ (by decide)⟩

/-! ## C3: service errors are not caught by call_openai -/

/-- C3 counterexample: with a credential configured and the completion
service failing with a transport error, call_openai lets the exception
propagate out of the function; the code has no try/except, so nothing
catches the error or turns it into a visible warning. -/
theorem c3_counterexample :
    call_openai (some ("sk-test".data)) (.error .transport) = .raised .transport := by
  decide

/-- C3 amended: for every configured credential and every service failure,
call_openai propagates the exception uncaught (no retry is attempted: the
single service outcome fully determines the result). -/
theorem c3_service_error_propagates (apiKey : Option (List Char)) (e : ServiceError)
    (h : keyTruthy apiKey = true) :
    call_openai apiKey (.error e) = .raised e := by
  simp [call_openai, h]

/-- Witness for the amended C3 at a concrete key and a quota error. -/
theorem c3_service_error_propagates_witness :
    keyTruthy (some ("sk-live".data)) = true ∧
    call_openai (some ("sk-live".data)) (.error .quota) = .raised .quota :=
  ⟨by decide, c3_service_error_propagates _ _ (by decide)⟩

/-! ## C2: ROI sequence length -/

/-- C2 counterexample: a response containing the bracketed array
[1.0, 2.0] makes calculate_roi_projection return that two-element array,
not a twelve-entry sequence. -/
theorem c2_counterexample :
    calculate_roi_projection ("Sure! [1.0, 2.0] is my estimate.".data) =
      .arr [.num 1, .num 2] ∧ [JVal.num 1, JVal.num 2].length ≠ 12 := by
  exact ⟨by decide, by decide⟩

/-- C2 amended: the twelve-entry guarantee holds exactly on the fallback
paths: whenever no bracketed numeric array is found, or the matched text
fails to parse, calculate_roi_projection returns the fixed default
sequence, which has exactly 12 entries.  When a match parses, the parsed
array is returned unchecked and its length can differ from 12. -/
theorem c2_fallback_has_twelve_entries (s : List Char)
    (h : ((findNumArr s).bind fun m => loads m) = none) :
    calculate_roi_projection s = .arr defaultROI ∧ defaultROI.length = 12 := by
  rcases hf : findNumArr s with _ | m
  · exact ⟨by simp [calculate_roi_projection, hf], rfl⟩
  · have hm : loads m = none := by
      have := h
      rw [hf] at this
      simpa using this
    exact ⟨by simp [calculate_roi_projection, hf, hm], rfl⟩

/-- Witness for the amended C2 at a concrete response with no bracketed
numeric array. -/
theorem c2_fallback_has_twelve_entries_witness :
    ((findNumArr ("thanks anyway".data)).bind fun m => loads m) = none ∧
    (calculate_roi_projection ("thanks anyway".data) = .arr defaultROI ∧
      defaultROI.length = 12) :=
  ⟨by decide, c2_fallback_has_twelve_entries _ (by decide)⟩

/-! ## C5: the numeric-array extraction path -/

theorem takeWhile_all_append {p : Char → Bool} :
    ∀ (xs : List Char) (y : Char) (ys : List Char),
      (∀ c ∈ xs, p c = true) → p y = false →
      (xs ++ y :: ys).takeWhile p = xs ∧ (xs ++ y :: ys).dropWhile p = y :: ys := by
  intro xs
  induction xs with
  | nil =>
    intro y ys _ hy
    simp [List.takeWhile_cons, List.dropWhile_cons, hy]
  | cons x xs ih =>
    intro y ys hall hy
    have hx : p x = true := hall x (by simp)
    have hrest := ih y ys (fun c hc => hall c (by simp [hc])) hy
    simp [List.takeWhile_cons, List.dropWhile_cons, hx, hrest.1, hrest.2]

theorem matchArrAt_sound {l m : List Char} (h : matchArrAt l = some m) :
    ∃ body suf, l = '[' :: (body ++ ']' :: suf) ∧ body ≠ [] ∧
      ∀ c ∈ body, numClass c = true := by
  cases l with
  | nil => simp [matchArrAt] at h
  | cons c rest =>
    by_cases hc : c = '['
    · subst hc
      simp only [matchArrAt, if_pos rfl] at h
      by_cases hb : (rest.takeWhile numClass).isEmpty
      · rw [if_pos hb] at h; exact absurd h (by simp)
      · rw [if_neg hb] at h
        by_cases hh : (rest.dropWhile numClass).head? = some ']'
        · obtain ⟨suf, hsuf⟩ : ∃ suf, rest.dropWhile numClass = ']' :: suf := by
            cases hd : rest.dropWhile numClass with
            | nil => rw [hd] at hh; simp at hh
            | cons a t =>
              rw [hd] at hh
              simp at hh
              exact ⟨t, by rw [hh]⟩
          refine ⟨rest.takeWhile numClass, suf, ?_, ?_, ?_⟩
          · have := @List.takeWhile_append_dropWhile Char numClass rest
            rw [hsuf] at this
            rw [this]
          · simpa [List.isEmpty_iff] using hb
          · intro x hx; exact List.mem_takeWhile_imp hx
        · rw [if_neg hh] at h; exact absurd h (by simp)
    · simp [matchArrAt, hc] at h

theorem findNumArr_sound : ∀ {s m : List Char}, findNumArr s = some m → hasNumArr s := by
  intro s
  induction s with
  | nil => intro m h; simp [findNumArr] at h
  | cons c cs ih =>
    intro m h
    unfold findNumArr at h
    cases hm : matchArrAt (c :: cs) with
    | some m2 =>
      obtain ⟨body, suf, heq, hne, hall⟩ := matchArrAt_sound hm
      exact ⟨[], body, suf, by simpa using heq, hne, hall⟩
    | none =>
      rw [hm] at h
      obtain ⟨pre, body, suf, heq, hne, hall⟩ := ih h
      exact ⟨c :: pre, body, suf, by simp [heq], hne, hall⟩

theorem findNumArr_complete : ∀ (pre : List Char) {body suf : List Char},
    body ≠ [] → (∀ c ∈ body, numClass c = true) →
    findNumArr (pre ++ '[' :: (body ++ ']' :: suf)) ≠ none := by
  intro pre
  induction pre with
  | nil =>
    intro body suf hne hall
    obtain ⟨b, bs, rfl⟩ := List.exists_cons_of_ne_nil hne
    obtain ⟨htake, hdrop⟩ := takeWhile_all_append (b :: bs) ']' suf hall (by decide)
    intro h
    rw [List.nil_append] at h
    unfold findNumArr at h
    have hmatch : matchArrAt ('[' :: ((b :: bs) ++ ']' :: suf)) =
        some ('[' :: (b :: bs) ++ [']']) := by
      simp only [matchArrAt, htake, hdrop]
      simp
    rw [hmatch] at h
    simp at h
  | cons p pre ih =>
    intro body suf hne hall
    intro h
    rw [List.cons_append] at h
    unfold findNumArr at h
    cases hm : matchArrAt (p :: (pre ++ '[' :: (body ++ ']' :: suf))) with
    | some m2 => rw [hm] at h; simp at h
    | none => rw [hm] at h; exact ih hne hall h

/-- The negation of hasNumArr follows from a failed search, which is how
witnesses discharge it on concrete inputs. -/
theorem not_hasNumArr_of_findNumArr_none {s : List Char}
    (h : findNumArr s = none) : ¬ hasNumArr s := by
  rintro ⟨pre, body, suf, rfl, hne, hall⟩
  exact findNumArr_complete pre hne hall h

/-- C5: on the numeric-array path, a response carrying the example
bracketed sequence inside explanatory prose yields exactly that parsed
12-element sequence, and every response containing no bracketed numeric
array yields exactly the fixed fallback sequence 0.5, 1.0, ..., 6.0. -/
theorem c5_numeric_array_path :
    calculate_roi_projection
        ("Based on my analysis, here is the 12-month projection: [1.5, 2.3, 3.1, 4.0, 5.2, 5.8, 6.5, 7.1, 7.5, 8.0, 8.3, 8.5]. These values assume steady adoption.".data) =
      .arr [.num (mkRat 3 2), .num (mkRat 23 10), .num (mkRat 31 10), .num 4,
            .num (mkRat 26 5), .num (mkRat 29 5), .num (mkRat 13 2), .num (mkRat 71 10),
            .num (mkRat 15 2), .num 8, .num (mkRat 83 10), .num (mkRat 17 2)] ∧
    ∀ s : List Char, ¬ hasNumArr s → calculate_roi_projection s = .arr defaultROI := by
  constructor
  · decide
  · intro s h
    cases hf : findNumArr s with
    | some m => exact absurd (findNumArr_sound hf) h
    | none => simp [calculate_roi_projection, hf]

/-- Witness for C5 at a concrete response with no bracketed numeric array. -/
theorem c5_numeric_array_path_witness :
    ¬ hasNumArr ("I cannot estimate that.".data) ∧
    calculate_roi_projection ("I cannot estimate that.".data) = .arr defaultROI :=
  ⟨not_hasNumArr_of_findNumArr_none (by decide),
   c5_numeric_array_path.2 _ (not_hasNumArr_of_findNumArr_none (by decide))⟩

/-! ## Whitespace and fence-stripping lemmas -/

theorem jsonWs_pyWs {c : Char} (h : jsonWs c = true) : pyWs c = true := by
  simp only [jsonWs, Bool.or_eq_true, decide_eq_true_eq] at h
  rcases h with ((h | h) | h) | h <;> simp [pyWs, h]

theorem dropWhile_append_all {p : Char → Bool} :
    ∀ (xs ys : List Char), (∀ c ∈ xs, p c = true) →
      (xs ++ ys).dropWhile p = ys.dropWhile p := by
  intro xs
  induction xs with
  | nil => intro ys _; rfl
  | cons x xs ih =>
    intro ys hall
    have hx : p x = true := hall x (by simp)
    simp [List.dropWhile_cons, hx, ih ys (fun c hc => hall c (by simp [hc]))]

theorem rdropWhile_append_all {p : Char → Bool} (x ws : List Char)
    (h : ∀ c ∈ ws, p c = true) : (x ++ ws).rdropWhile p = x.rdropWhile p := by
  simp only [List.rdropWhile, List.reverse_append]
  rw [dropWhile_append_all ws.reverse x.reverse (fun c hc => h c (List.mem_reverse.1 hc))]

theorem dropWhile_eq_self_of_prefix {p : Char → Bool} {u m : List Char}
    (hu : u <+: m) (hm : m.dropWhile p = m) : u.dropWhile p = u := by
  cases u with
  | nil => rfl
  | cons c cs =>
    obtain ⟨k, rfl⟩ := hu
    have hc : ¬ p c = true := by
      have h0 := List.dropWhile_eq_self_iff.1 hm (by simp)
      simpa using h0
    simp [List.dropWhile_cons, hc]

theorem pyStrip_infix_self (l : List Char) : pyStrip l <:+: l :=
  List.infix_iff_prefix_suffix.2
    ⟨l.dropWhile pyWs, List.rdropWhile_prefix pyWs _, List.dropWhile_suffix pyWs⟩

theorem pyStrip_dropWhile_eq_self (l : List Char) :
    (pyStrip l).dropWhile pyWs = pyStrip l :=
  dropWhile_eq_self_of_prefix (List.rdropWhile_prefix pyWs _)
    (List.dropWhile_idempotent _ _)

theorem pyStrip_idem (l : List Char) : pyStrip (pyStrip l) = pyStrip l := by
  have h1 : pyStrip (pyStrip l) = (pyStrip l).rdropWhile pyWs := by
    show ((pyStrip l).dropWhile pyWs).rdropWhile pyWs = _
    rw [pyStrip_dropWhile_eq_self]
  rw [h1]
  show ((l.dropWhile pyWs).rdropWhile pyWs).rdropWhile pyWs = pyStrip l
  rw [List.rdropWhile_idempotent]
  rfl

theorem pyStrip_eq_self_parts {t : List Char} (h : pyStrip t = t) :
    t.dropWhile pyWs = t ∧ t.rdropWhile pyWs = t := by
  have hdrop : t.dropWhile pyWs = t := by
    have hsuf : t.dropWhile pyWs <:+ t := List.dropWhile_suffix pyWs
    apply hsuf.eq_of_length
    have h1 : (pyStrip t).length ≤ (t.dropWhile pyWs).length :=
      ( List.rdropWhile_prefix pyWs _).length_le
    have h2 : (t.dropWhile pyWs).length ≤ t.length := hsuf.length_le
    rw [h] at h1
    omega
  refine ⟨hdrop, ?_⟩
  have hr : pyStrip t = (t.dropWhile pyWs).rdropWhile pyWs := rfl
  rw [hdrop] at hr
  rw [← hr, h]

theorem pyStrip_cons_not_ws {c : Char} {cs : List Char} (h : pyWs c = false) :
    ∃ t', pyStrip (c :: cs) = c :: t' := by
  have hdrop : (c :: cs).dropWhile pyWs = c :: cs := by
    simp [List.dropWhile_cons, h]
  have hne : (c :: cs).rdropWhile pyWs ≠ [] := by
    rw [Ne, List.rdropWhile_eq_nil_iff]
    intro hall
    have := hall c (by simp)
    rw [h] at this
    exact absurd this (by simp)
  have hpre : (c :: cs).rdropWhile pyWs <+: c :: cs := List.rdropWhile_prefix _ _
  cases hr : (c :: cs).rdropWhile pyWs with
  | nil => exact absurd hr hne
  | cons a t' =>
    obtain ⟨k, hk⟩ := hpre
    rw [hr, List.cons_append] at hk
    have ha : a = c := (List.cons.injEq _ _ _ _ ▸ hk).1
    refine ⟨t', ?_⟩
    show ((c :: cs).dropWhile pyWs).rdropWhile pyWs = c :: t'
    rw [hdrop, hr, ha]

theorem pyStrip_sandwich {ws1 ws2 t : List Char}
    (h1 : ∀ c ∈ ws1, pyWs c = true) (h2 : ∀ c ∈ ws2, pyWs c = true)
    (ht : pyStrip t = t) :
    pyStrip (ws1 ++ t ++ ws2) = t := by
  obtain ⟨hdrop, hrdrop⟩ := pyStrip_eq_self_parts ht
  cases t with
  | nil =>
    have hall : ∀ c ∈ ws1 ++ ws2, pyWs c = true := by
      intro c hc
      rcases List.mem_append.1 hc with h | h
      · exact h1 c h
      · exact h2 c h
    have hzero : (ws1 ++ ([] : List Char) ++ ws2).dropWhile pyWs = [] := by
      rw [List.dropWhile_eq_nil_iff]
      intro c hc
      apply hall
      simpa using hc
    show ((ws1 ++ [] ++ ws2).dropWhile pyWs).rdropWhile pyWs = []
    rw [hzero]
    rfl
  | cons c cs =>
    have hc : ¬ pyWs c = true := by
      have h0 := List.dropWhile_eq_self_iff.1 hdrop (by simp)
      simpa using h0
    have hL : (ws1 ++ (c :: cs) ++ ws2).dropWhile pyWs = (c :: cs) ++ ws2 := by
      rw [List.append_assoc, dropWhile_append_all ws1 _ h1]
      simp [List.dropWhile_cons, hc]
    have hR : ((c :: cs) ++ ws2).rdropWhile pyWs = c :: cs := by
      rw [rdropWhile_append_all _ _ h2, hrdrop]
    show ((ws1 ++ (c :: cs) ++ ws2).dropWhile pyWs).rdropWhile pyWs = c :: cs
    rw [hL, hR]

theorem removeFirstOcc_of_prefix {pat l : List Char} (h : pat.isPrefixOf l = true) :
    removeFirstOcc pat l = l.drop pat.length := by
  cases l with
  | nil => simp [removeFirstOcc]
  | cons c cs => simp [removeFirstOcc, h]

theorem stripOpenFence_suffix (l : List Char) : stripOpenFence l <:+ l := by
  unfold stripOpenFence
  by_cases hp : jsonFence.isPrefixOf l = true
  · rw [if_pos hp, removeFirstOcc_of_prefix hp]
    exact List.drop_suffix _ _
  · rw [if_neg hp]

theorem stripCloseFence_prefix_self (l : List Char) : stripCloseFence l <+: l := by
  unfold stripCloseFence
  by_cases hs : fence3.isSuffixOf l = true
  · rw [if_pos hs]
    exact List.take_prefix _ _
  · rw [if_neg hs]

theorem stripFences_infix_self (l : List Char) : stripFences l <:+: l := by
  unfold stripFences
  exact (pyStrip_infix_self _).trans
    (((stripCloseFence_prefix_self _).isInfix).trans (stripOpenFence_suffix l).isInfix)

theorem stripFences_pyStrip_fix (l : List Char) :
    pyStrip (stripFences l) = stripFences l := by
  unfold stripFences
  rw [pyStrip_idem]

/-! ## Head-character behavior of the value parser -/

theorem parseValue_not_starter {c : Char} (h : starterChar c = false) :
    ∀ (f : Nat) (cs : List Char), parseValue f (c :: cs) = none := by
  intro f cs
  simp only [starterChar, Bool.or_eq_false_iff, decide_eq_false_iff_not] at h
  obtain ⟨⟨⟨⟨⟨⟨⟨⟨⟨h1, h2⟩, h3⟩, h4⟩, h5⟩, h6⟩, h7⟩, h8⟩, h9⟩, h10⟩ := h
  cases f with
  | zero => rfl
  | succ f =>
    simp only [parseValue]
    simp [h1, h2, h3, h4, h5, h6, h7, h8, h9, h10]

theorem parseValue_starter {f : Nat} {c : Char} {cs : List Char} {x : JVal × List Char}
    (h : parseValue f (c :: cs) = some x) : starterChar c = true := by
  by_cases hs : starterChar c = true
  · exact hs
  · rw [parseValue_not_starter (by simpa using hs) f cs] at h
    exact absurd h (by simp)

theorem loads_not_starter_head {c : Char} {cs : List Char}
    (hws : jsonWs c = false) (hst : starterChar c = false) : loads (c :: cs) = none := by
  unfold loads
  have h1 : skipWs (c :: cs) = c :: cs := by simp [skipWs, List.dropWhile_cons, hws]
  rw [h1, parseValue_not_starter hst]

/-! ## C10: an untagged opening fence is not stripped -/

/-- C10: for a text wrapped in a bare untagged opening fence and a
trailing fence (so the tagged marker is not a prefix of it), the cleaning
leaves the opening marker in place (step one is the identity), still drops
the trailing three characters, and the strict parse then fails on the
leading backtick, so the normalizer reports the raw text as unparsed no
matter what the inner content is. -/
theorem c10_untagged_fence_not_stripped (inner : List Char)
    (h : ¬ jsonFence <+: (fence3 ++ inner ++ fence3)) :
    stripOpenFence (fence3 ++ inner ++ fence3) = fence3 ++ inner ++ fence3 ∧
    stripCloseFence (fence3 ++ inner ++ fence3) = fence3 ++ inner ∧
    App.normalize (fence3 ++ inner ++ fence3) =
      .unparsed (fence3 ++ inner ++ fence3) := by
  have hp : jsonFence.isPrefixOf (fence3 ++ inner ++ fence3) = false := by
    cases hb : jsonFence.isPrefixOf (fence3 ++ inner ++ fence3) with
    | false => rfl
    | true => exact absurd (( List.isPrefixOf_iff_prefix).1 hb) h
  have h1 : stripOpenFence (fence3 ++ inner ++ fence3) = fence3 ++ inner ++ fence3 := by
    unfold stripOpenFence
    rw [hp]
    simp
  have hs : fence3.isSuffixOf (fence3 ++ inner ++ fence3) = true :=
    ( List.isSuffixOf_iff_suffix).2 ⟨fence3 ++ inner, by rw [List.append_assoc]⟩
  have h2 : stripCloseFence (fence3 ++ inner ++ fence3) = fence3 ++ inner := by
    unfold stripCloseFence
    rw [if_pos hs]
    show dropRightN 3 ((fence3 ++ inner) ++ fence3) = fence3 ++ inner
    unfold dropRightN
    rw [List.length_append, show fence3.length = 3 from rfl, Nat.add_sub_cancel]
    exact List.take_left _ _
  have hfc : fence3 = [btick, btick, btick] := by decide
  have hcons : fence3 ++ inner = btick :: (btick :: btick :: inner) := by
    rw [hfc]
    rfl
  obtain ⟨t', ht'⟩ :=
    @pyStrip_cons_not_ws btick (btick :: btick :: inner) (by decide)
  have hsf : stripFences (fence3 ++ inner ++ fence3) = btick :: t' := by
    unfold stripFences
    rw [h1, h2, hcons, ht']
  have hl : loads (btick :: t') = none :=
    loads_not_starter_head (by decide) (by decide)
  refine ⟨h1, h2, ?_⟩
  unfold App.normalize
  rw [hsf, hl]

/-- Witness for C10: a bare-fenced response whose inner content is valid
JSON still comes back unparsed. -/
theorem c10_untagged_fence_not_stripped_witness :
    (¬ jsonFence <+: (fence3 ++ ("\n\x7b\"a\": true\x7d\n".data) ++ fence3)) ∧
    App.normalize (fence3 ++ ("\n\x7b\"a\": true\x7d\n".data) ++ fence3) =
      .unparsed (fence3 ++ ("\n\x7b\"a\": true\x7d\n".data) ++ fence3) :=
  ⟨by decide, (c10_untagged_fence_not_stripped _ (by decide)).2.2⟩

/-! ## C7: inputs with no valid JSON substring come back unparsed -/

theorem infix_mem_infixes {t s : List Char} (h : t <:+: s) : t ∈ infixes s := by
  obtain ⟨u, hpre, hsuf⟩ := List.infix_iff_prefix_suffix.1 h
  exact List.mem_flatMap.2 ⟨u, (List.mem_tails _ _).2 hsuf, (List.mem_inits _ _).2 hpre⟩

theorem loads_none_of_all_infixes {s : List Char}
    (h : ∀ t ∈ infixes s, loads t = none) : ∀ t, t <:+: s → loads t = none :=
  fun t ht => h t (infix_mem_infixes ht)

/-- C7: when no contiguous substring of the input is valid JSON, the
normalizer returns the Unparsed outcome carrying the original raw text
unchanged (the cleaned text is itself a substring of the input, so its
strict parse fails too); the pipeline is a total function, so no exception
reaches the caller. -/
theorem c7_no_valid_json_substring (s : List Char)
    (h : ∀ t, t <:+: s → loads t = none) :
    App.normalize s = .unparsed s := by
  unfold App.normalize
  rw [h (stripFences s) (stripFences_infix_self s)]

/-- Witness for C7 at a concrete input none of whose substrings parse. -/
theorem c7_no_valid_json_substring_witness :
    (∀ t, t <:+: ("oops?!".data) → loads t = none) ∧
    App.normalize ("oops?!".data) = .unparsed ("oops?!".data) :=
  ⟨loads_none_of_all_infixes (by decide),
   c7_no_valid_json_substring _ (loads_none_of_all_infixes (by decide))⟩

/-! ## C1: there is no brace-extraction fallback -/

/-- C1 counterexample: a response embedding the syntactically valid JSON
object with prose on both sides, which a brace-extraction fallback would
recover, instead comes back unparsed: the code has no such fallback. -/
theorem c1_counterexample :
    loads ("\x7b\"a\": 1\x7d".data) = some (.obj [("a".data, .num 1)]) ∧
    App.normalize ("Here is the plan: \x7b\"a\": 1\x7d hope it helps".data) =
      .unparsed ("Here is the plan: \x7b\"a\": 1\x7d hope it helps".data) :=
  ⟨by decide, by decide⟩

/-- C1 amended: the normalizer has no fallback after the strict parse:
whenever the strict parse of the cleaned text fails, the raw text is
reported as unparsed, even when a syntactically valid JSON value is
embedded in it with leading and trailing prose. -/
theorem c1_no_brace_extraction_fallback (pre mid suf : List Char) (v : JVal)
    (_hmid : loads mid = some v)
    (hfail : loads (stripFences (pre ++ mid ++ suf)) = none) :
    App.normalize (pre ++ mid ++ suf) = .unparsed (pre ++ mid ++ suf) := by
  unfold App.normalize
  rw [hfail]

/-- Witness for the amended C1 at a concrete prose-wrapped object. -/
theorem c1_no_brace_extraction_fallback_witness :
    loads ("\x7b\"step\": 1\x7d".data) = some (.obj [("step".data, .num 1)]) ∧
    loads (stripFences (("Plan: ".data) ++ ("\x7b\"step\": 1\x7d".data) ++ (" Done.".data))) = none ∧
    App.normalize (("Plan: ".data) ++ ("\x7b\"step\": 1\x7d".data) ++ (" Done.".data)) =
      .unparsed (("Plan: ".data) ++ ("\x7b\"step\": 1\x7d".data) ++ (" Done.".data)) :=
  ⟨by decide, by decide,
   c1_no_brace_extraction_fallback _ _ _ (.obj [("step".data, .num 1)])
     (by decide) (by decide)⟩

/-! ## C4: fence stripping succeeds only with the markers at the very ends -/

/-- C4 counterexample: with a single leading space before the tagged
fence, the opening marker is not removed (the startswith test is on the
untrimmed text), so the strict parse fails even though the inner JSON is
valid: the claim's allowance of surrounding whitespace does not hold. -/
theorem c4_counterexample :
    loads ("\x7b\"b\": 2\x7d".data) = some (.obj [("b".data, .num 2)]) ∧
    App.normalize (" ```json\x7b\"b\": 2\x7d```".data) =
      .unparsed (" ```json\x7b\"b\": 2\x7d```".data) :=
  ⟨by decide, by decide⟩

/-- C4 amended: when the tagged opening fence is exactly at the start and
the bare fence exactly at the end of the raw text (whitespace is fine
inside the fences but not outside them), the cleaning removes exactly the
two markers and the final strip, and the strict parse succeeds on the
stripped valid inner document. -/
theorem c4_exact_fences_parse (ws1 ws2 t : List Char) (v : JVal)
    (h1 : ∀ c ∈ ws1, pyWs c = true) (h2 : ∀ c ∈ ws2, pyWs c = true)
    (ht : pyStrip t = t) (hv : loads t = some v) :
    App.normalize (jsonFence ++ ws1 ++ t ++ ws2 ++ fence3) = .parsed v := by
  have hp : jsonFence.isPrefixOf (jsonFence ++ ws1 ++ t ++ ws2 ++ fence3) = true :=
    ( List.isPrefixOf_iff_prefix).2 ⟨ws1 ++ t ++ ws2 ++ fence3, by simp [List.append_assoc]⟩
  have hopen : stripOpenFence (jsonFence ++ ws1 ++ t ++ ws2 ++ fence3) =
      ws1 ++ t ++ ws2 ++ fence3 := by
    unfold stripOpenFence
    rw [if_pos hp, removeFirstOcc_of_prefix hp]
    have hassoc : jsonFence ++ ws1 ++ t ++ ws2 ++ fence3 =
        jsonFence ++ (ws1 ++ t ++ ws2 ++ fence3) := by
      simp [List.append_assoc]
    rw [hassoc, List.drop_left]
  have hassoc2 : ws1 ++ t ++ ws2 ++ fence3 = (ws1 ++ t ++ ws2) ++ fence3 := by
    simp [List.append_assoc]
  have hs : fence3.isSuffixOf (ws1 ++ t ++ ws2 ++ fence3) = true :=
    ( List.isSuffixOf_iff_suffix).2 ⟨ws1 ++ t ++ ws2, hassoc2.symm⟩
  have hclose : stripCloseFence (ws1 ++ t ++ ws2 ++ fence3) = ws1 ++ t ++ ws2 := by
    unfold stripCloseFence
    rw [if_pos hs]
    unfold dropRightN
    rw [hassoc2, List.length_append, show fence3.length = 3 from rfl,
      Nat.add_sub_cancel]
    exact List.take_left _ _
  have hstrip : stripFences (jsonFence ++ ws1 ++ t ++ ws2 ++ fence3) = t := by
    unfold stripFences
    rw [hopen, hclose]
    exact pyStrip_sandwich h1 h2 ht
  unfold App.normalize
  rw [hstrip, hv]

/-- Witness for the amended C4 at a concrete fenced response with
newlines inside the fences. -/
theorem c4_exact_fences_parse_witness :
    (∀ c ∈ ("\n".data), pyWs c = true) ∧
    (∀ c ∈ ("\n  ".data), pyWs c = true) ∧
    pyStrip ("\x7b\"a\": 1\x7d".data) = "\x7b\"a\": 1\x7d".data ∧
    loads ("\x7b\"a\": 1\x7d".data) = some (.obj [("a".data, .num 1)]) ∧
    App.normalize (jsonFence ++ ("\n".data) ++ ("\x7b\"a\": 1\x7d".data) ++
        ("\n  ".data) ++ fence3) = .parsed (.obj [("a".data, .num 1)]) :=
  ⟨by decide, by decide, by decide, by decide,
   c4_exact_fences_parse _ _ _ _ (by decide) (by decide) (by decide) (by decide)⟩

/-! ## Consumed-segment structure of the number scan -/

theorem exists_last_digit {xs : List Char} (hne : xs ≠ [])
    (hall : ∀ c ∈ xs, c.isDigit = true) :
    ∃ ys d, xs = ys ++ [d] ∧ d.isDigit = true :=
  ⟨xs.dropLast, xs.getLast hne, (List.dropLast_append_getLast hne).symm,
   hall _ (List.getLast_mem hne)⟩

theorem intDigits_decomp {d : Char} {rest : List Char} (hd : d.isDigit = true) :
    ∃ ip r1, intDigits (d :: rest) = (ip, r1) ∧ d :: rest = ip ++ r1 ∧ ip ≠ [] ∧
      ∀ c ∈ ip, c.isDigit = true := by
  by_cases h0 : d = '0'
  · subst h0
    exact ⟨['0'], rest, by simp [intDigits], rfl, by simp,
      by intro c hc; simp at hc; simp [hc]⟩
  · refine ⟨(d :: rest).takeWhile Char.isDigit, (d :: rest).dropWhile Char.isDigit,
      by simp [intDigits, h0], (List.takeWhile_append_dropWhile _ _).symm, ?_, ?_⟩
    · simp [List.takeWhile_cons, hd]
    · intro c hc; exact List.mem_takeWhile_imp hc

theorem fracDigits_decomp (r1 : List Char) :
    fracDigits r1 = ([], r1) ∨
    ∃ fp r2, fracDigits r1 = (fp, r2) ∧ fp ≠ [] ∧ (∀ c ∈ fp, c.isDigit = true) ∧
      r1 = '.' :: (fp ++ r2) := by
  cases r1 with
  | nil => left; rfl
  | cons c rest =>
    by_cases hc : c = '.'
    · subst hc
      by_cases hfd : (rest.takeWhile Char.isDigit).isEmpty
      · left; simp [fracDigits, hfd]
      · right
        refine ⟨rest.takeWhile Char.isDigit, rest.dropWhile Char.isDigit,
          by simp [fracDigits, hfd], ?_, ?_, ?_⟩
        · simpa [List.isEmpty_iff] using hfd
        · intro x hx; exact List.mem_takeWhile_imp hx
        · rw [List.takeWhile_append_dropWhile]
    · left; simp [fracDigits, hc]

theorem expDigits_decomp (r2 : List Char) :
    ∃ en ep r3, expDigits r2 = (en, ep, r3) ∧
      ((ep = [] ∧ r3 = r2) ∨
        (ep ≠ [] ∧ (∀ c ∈ ep, c.isDigit = true) ∧ ∃ w, r2 = w ++ (ep ++ r3))) := by
  cases r2 with
  | nil => exact ⟨false, [], [], rfl, .inl ⟨rfl, rfl⟩⟩
  | cons e rest =>
    by_cases he : e = 'e' ∨ e = 'E'
    · cases rest with
      | nil => exact ⟨false, [], [e], by simp [expDigits, he], .inl ⟨rfl, rfl⟩⟩
      | cons s rest2 =>
        by_cases hs : s = '+' ∨ s = '-'
        · by_cases hed : (rest2.takeWhile Char.isDigit).isEmpty
          · exact ⟨false, [], e :: s :: rest2, by simp [expDigits, he, hs, hed],
              .inl ⟨rfl, rfl⟩⟩
          · refine ⟨decide (s = '-'), rest2.takeWhile Char.isDigit,
              rest2.dropWhile Char.isDigit, by simp [expDigits, he, hs, hed],
              .inr ⟨?_, ?_, ⟨[e, s], ?_⟩⟩⟩
            · simpa [List.isEmpty_iff] using hed
            · intro x hx; exact List.mem_takeWhile_imp hx
            · simp [List.takeWhile_append_dropWhile]
        · by_cases hed : ((s :: rest2).takeWhile Char.isDigit).isEmpty
          · exact ⟨false, [], e :: s :: rest2, by simp [expDigits, he, hs, hed],
              .inl ⟨rfl, rfl⟩⟩
          · refine ⟨false, (s :: rest2).takeWhile Char.isDigit,
              (s :: rest2).dropWhile Char.isDigit, by simp [expDigits, he, hs, hed],
              .inr ⟨?_, ?_, ⟨[e], ?_⟩⟩⟩
            · simpa [List.isEmpty_iff] using hed
            · intro x hx; exact List.mem_takeWhile_imp hx
            · simp [List.takeWhile_append_dropWhile]
    · exact ⟨false, [], e :: rest, by simp [expDigits, he], .inl ⟨rfl, rfl⟩⟩

theorem parseNumBody_suffix {neg : Bool} {l1 : List Char} {q : ℚ} {r : List Char}
    (h : parseNumBody neg l1 = some (q, r)) :
    ∃ d, d.isDigit = true ∧ (d :: r) <:+ l1 := by
  cases l1 with
  | nil => simp [parseNumBody] at h
  | cons d rest =>
    by_cases hd : d.isDigit = true
    · obtain ⟨ip, r1, hint, hsplit, hipne, hipall⟩ := @intDigits_decomp d rest hd
      simp only [parseNumBody, if_pos hd, hint] at h
      rcases fracDigits_decomp r1 with hfrac | ⟨fp, r2, hfrac, hfpne, hfpall, hr1⟩
      · -- no fraction: r2 = r1
        rw [hfrac] at h
        obtain ⟨en, ep, r3, hexp, hcases⟩ := expDigits_decomp r1
        rw [hexp] at h
        simp only [Option.some.injEq, Prod.mk.injEq] at h
        obtain ⟨-, hr⟩ := h
        subst hr
        rcases hcases with ⟨hep, hr3⟩ | ⟨hepne, hepall, w, hw⟩
        · -- no exponent either: the number ends with the last integer digit
          rw [hr3]
          obtain ⟨ys, dl, hys, hdl⟩ := exists_last_digit hipne hipall
          refine ⟨dl, hdl, ⟨ys, ?_⟩⟩
          rw [hsplit, hys]
          simp
        · -- exponent digits end the number
          obtain ⟨ys, dl, hys, hdl⟩ := exists_last_digit hepne hepall
          refine ⟨dl, hdl, ?_⟩
          have hsub : (dl :: r3) <:+ r1 := by
            rw [hw, hys]
            exact ⟨w ++ ys, by simp⟩
          exact hsub.trans ⟨ip, hsplit.symm⟩
      · -- fraction present
        rw [hfrac] at h
        obtain ⟨en, ep, r3, hexp, hcases⟩ := expDigits_decomp r2
        rw [hexp] at h
        simp only [Option.some.injEq, Prod.mk.injEq] at h
        obtain ⟨-, hr⟩ := h
        subst hr
        have hr2r1 : ∀ x, (x :: r3) <:+ r2 → (x :: r3) <:+ d :: rest := by
          intro x hx
          have h1 : (x :: r3) <:+ r1 := by
            rw [hr1]
            exact (hx.trans ⟨fp, rfl⟩).trans (List.suffix_cons _ _)
          exact h1.trans ⟨ip, hsplit.symm⟩
        rcases hcases with ⟨hep, hr3⟩ | ⟨hepne, hepall, w, hw⟩
        · -- number ends with the fraction digits
          rw [hr3]
          obtain ⟨ys, dl, hys, hdl⟩ := exists_last_digit hfpne hfpall
          refine ⟨dl, hdl, ?_⟩
          have h1 : (dl :: r2) <:+ r1 := by
            rw [hr1, hys]
            exact List.IsSuffix.trans
              (show (dl :: r2) <:+ ys ++ [dl] ++ r2 from ⟨ys, by simp⟩)
              (List.suffix_cons _ _)
          exact h1.trans ⟨ip, hsplit.symm⟩
        · -- number ends with the exponent digits
          obtain ⟨ys, dl, hys, hdl⟩ := exists_last_digit hepne hepall
          refine ⟨dl, hdl, hr2r1 dl ?_⟩
          rw [hw, hys]
          exact ⟨w ++ ys, by simp⟩
    · simp [parseNumBody, hd] at h

theorem parseNum_suffix {l : List Char} {q : ℚ} {r : List Char}
    (h : parseNum l = some (q, r)) : ∃ d, d.isDigit = true ∧ (d :: r) <:+ l := by
  cases l with
  | nil => simp [parseNum] at h
  | cons c cs =>
    by_cases hc : c = '-'
    · rw [parseNum, if_pos hc] at h
      obtain ⟨d, hd, hsuf⟩ := parseNumBody_suffix h
      exact ⟨d, hd, hsuf.trans (List.suffix_cons c cs)⟩
    · rw [parseNum, if_neg hc] at h
      exact parseNumBody_suffix h

/-! ## Every successful parse ends at a closing character -/

theorem skipWs_suffix (l : List Char) : skipWs l <:+ l := List.dropWhile_suffix _

theorem parseValue_cons_eq (f : Nat) (c : Char) (cs : List Char) :
    parseValue (f + 1) (c :: cs) =
    (if c = '{' then
      match parseObjBody f (skipWs cs) with
      | some (kvs, r) => some (.obj kvs, r)
      | none => none
    else if c = '[' then
      match parseArrBody f (skipWs cs) with
      | some (xs, r) => some (.arr xs, r)
      | none => none
    else if c = '"' then
      match parseStrBody f cs with
      | some (s, r) => some (.str s, r)
      | none => none
    else if c = 't' then
      match cs with
      | 'r' :: 'u' :: 'e' :: r => some (.bool true, r)
      | _ => none
    else if c = 'f' then
      match cs with
      | 'a' :: 'l' :: 's' :: 'e' :: r => some (.bool false, r)
      | _ => none
    else if c = 'n' then
      match cs with
      | 'u' :: 'l' :: 'l' :: r => some (.null, r)
      | _ => none
    else if c = 'N' then
      match cs with
      | 'a' :: 'N' :: r => some (.nan, r)
      | _ => none
    else if c = 'I' then
      match cs with
      | 'n' :: 'f' :: 'i' :: 'n' :: 'i' :: 't' :: 'y' :: r => some (.inf, r)
      | _ => none
    else if c = '-' then
      match cs with
      | 'I' :: 'n' :: 'f' :: 'i' :: 'n' :: 'i' :: 't' :: 'y' :: r => some (.negInf, r)
      | _ =>
        match parseNum (c :: cs) with
        | some (q, r) => some (.num q, r)
        | none => none
    else if c.isDigit then
      match parseNum (c :: cs) with
      | some (q, r) => some (.num q, r)
      | none => none
    else none) := rfl

theorem parseObjBody_succ_eq (f : Nat) (l : List Char) :
    parseObjBody (f + 1) l =
    (match l with
     | '}' :: r => some ([], r)
     | _ => parseMembers f l) := rfl

theorem parseMembers_succ_eq (f : Nat) (l : List Char) :
    parseMembers (f + 1) l =
    (match l with
     | '"' :: cs =>
       match parseStrBody f cs with
       | some (key, r1) =>
         match skipWs r1 with
         | ':' :: r2 =>
           match parseValue f (skipWs r2) with
           | some (v, r3) =>
             match skipWs r3 with
             | ',' :: r4 =>
               match parseMembers f (skipWs r4) with
               | some (kvs, r5) => some ((key, v) :: kvs, r5)
               | none => none
             | '}' :: r4 => some ([(key, v)], r4)
             | _ => none
           | none => none
         | _ => none
       | none => none
     | _ => none) := rfl

theorem parseArrBody_succ_eq (f : Nat) (l : List Char) :
    parseArrBody (f + 1) l =
    (match l with
     | ']' :: r => some ([], r)
     | _ => parseElems f l) := rfl

theorem parseElems_succ_eq (f : Nat) (l : List Char) :
    parseElems (f + 1) l =
    (match parseValue f l with
     | some (v, r1) =>
       match skipWs r1 with
       | ',' :: r2 =>
         match parseElems f (skipWs r2) with
         | some (xs, r3) => some (v :: xs, r3)
         | none => none
       | ']' :: r2 => some ([v], r2)
       | _ => none
     | none => none) := rfl

theorem parseStrBody_cons_eq (f : Nat) (c : Char) (cs : List Char) :
    parseStrBody (f + 1) (c :: cs) =
    (if c = '"' then some ([], cs)
    else if c = '\\' then
      match cs with
      | 'u' :: h1 :: h2 :: h3 :: h4 :: rest =>
        match hexVal h1, hexVal h2, hexVal h3, hexVal h4 with
        | some a, some b, some g, some d =>
          match parseStrBody f rest with
          | some (s, r) => some (Char.ofNat (((a * 16 + b) * 16 + g) * 16 + d) :: s, r)
          | none => none
        | _, _, _, _ => none
      | e :: rest =>
        match escChar e with
        | some ec =>
          match parseStrBody f rest with
          | some (s, r) => some (ec :: s, r)
          | none => none
        | none => none
      | [] => none
    else if c.toNat < 32 then none
    else
      match parseStrBody f cs with
      | some (s, r) => some (c :: s, r)
      | none => none) := rfl

set_option maxHeartbeats 1000000 in
theorem parse_end_suffix :
    ∀ f : Nat,
      (∀ l v r, parseValue f l = some (v, r) →
        ∃ c, endOKChar c = true ∧ (c :: r) <:+ l) ∧
      (∀ l kvs r, parseObjBody f l = some (kvs, r) → ('}' :: r) <:+ l) ∧
      (∀ l kvs r, parseMembers f l = some (kvs, r) → ('}' :: r) <:+ l) ∧
      (∀ l xs r, parseArrBody f l = some (xs, r) → (']' :: r) <:+ l) ∧
      (∀ l xs r, parseElems f l = some (xs, r) → (']' :: r) <:+ l) ∧
      (∀ l s r, parseStrBody f l = some (s, r) → ('"' :: r) <:+ l) := by
  intro f
  induction f with
  | zero =>
    refine ⟨?_, ?_, ?_, ?_, ?_, ?_⟩ <;> intro l a r h <;>
      simp [parseValue, parseObjBody, parseMembers, parseArrBody, parseElems,
        parseStrBody] at h
  | succ f ih =>
    obtain ⟨ihV, ihO, ihM, ihA, ihE, ihS⟩ := ih
    refine ⟨?_, ?_, ?_, ?_, ?_, ?_⟩
    · -- parseValue
      intro l v r h
      cases l with
      | nil => simp [parseValue] at h
      | cons c cs =>
        rw [parseValue_cons_eq] at h
        by_cases h1 : c = '{'
        · rw [if_pos h1] at h
          subst h1
          cases ho : parseObjBody f (skipWs cs) with
          | none => simp [ho] at h
          | some p =>
            obtain ⟨kvs, r2⟩ := p
            simp only [ho] at h
            simp only [Option.some.injEq, Prod.mk.injEq] at h
            obtain ⟨-, hr⟩ := h
            subst hr
            exact ⟨'}', by decide,
              (ihO _ _ _ ho).trans ((skipWs_suffix cs).trans (List.suffix_cons _ _))⟩
        · rw [if_neg h1] at h
          by_cases h2 : c = '['
          · rw [if_pos h2] at h
            subst h2
            cases ha : parseArrBody f (skipWs cs) with
            | none => simp [ha] at h
            | some p =>
              obtain ⟨xs, r2⟩ := p
              simp only [ha] at h
              simp only [Option.some.injEq, Prod.mk.injEq] at h
              obtain ⟨-, hr⟩ := h
              subst hr
              exact ⟨']', by decide,
                (ihA _ _ _ ha).trans ((skipWs_suffix cs).trans (List.suffix_cons _ _))⟩
          · rw [if_neg h2] at h
            by_cases h3 : c = '"'
            · rw [if_pos h3] at h
              subst h3
              cases hsb : parseStrBody f cs with
              | none => simp [hsb] at h
              | some p =>
                obtain ⟨s0, r2⟩ := p
                simp only [hsb] at h
                simp only [Option.some.injEq, Prod.mk.injEq] at h
                obtain ⟨-, hr⟩ := h
                subst hr
                exact ⟨'"', by decide, (ihS _ _ _ hsb).trans (List.suffix_cons _ _)⟩
            · rw [if_neg h3] at h
              by_cases h4 : c = 't'
              · rw [if_pos h4] at h
                subst h4
                split at h
                · simp only [Option.some.injEq, Prod.mk.injEq] at h
                  obtain ⟨-, hr⟩ := h
                  subst hr
                  exact ⟨'e', by decide, ⟨['t', 'r', 'u'], rfl⟩⟩
                · simp at h
              · rw [if_neg h4] at h
                by_cases h5 : c = 'f'
                · rw [if_pos h5] at h
                  subst h5
                  split at h
                  · simp only [Option.some.injEq, Prod.mk.injEq] at h
                    obtain ⟨-, hr⟩ := h
                    subst hr
                    exact ⟨'e', by decide, ⟨['f', 'a', 'l', 's'], rfl⟩⟩
                  · simp at h
                · rw [if_neg h5] at h
                  by_cases h6 : c = 'n'
                  · rw [if_pos h6] at h
                    subst h6
                    split at h
                    · simp only [Option.some.injEq, Prod.mk.injEq] at h
                      obtain ⟨-, hr⟩ := h
                      subst hr
                      exact ⟨'l', by decide, ⟨['n', 'u', 'l'], rfl⟩⟩
                    · simp at h
                  · rw [if_neg h6] at h
                    by_cases h7 : c = 'N'
                    · rw [if_pos h7] at h
                      subst h7
                      split at h
                      · simp only [Option.some.injEq, Prod.mk.injEq] at h
                        obtain ⟨-, hr⟩ := h
                        subst hr
                        exact ⟨'N', by decide, ⟨['N', 'a'], rfl⟩⟩
                      · simp at h
                    · rw [if_neg h7] at h
                      by_cases h8 : c = 'I'
                      · rw [if_pos h8] at h
                        subst h8
                        split at h
                        · simp only [Option.some.injEq, Prod.mk.injEq] at h
                          obtain ⟨-, hr⟩ := h
                          subst hr
                          exact ⟨'y', by decide,
                            ⟨['I', 'n', 'f', 'i', 'n', 'i', 't'], rfl⟩⟩
                        · simp at h
                      · rw [if_neg h8] at h
                        by_cases h9 : c = '-'
                        · rw [if_pos h9] at h
                          subst h9
                          split at h
                          · simp only [Option.some.injEq, Prod.mk.injEq] at h
                            obtain ⟨-, hr⟩ := h
                            subst hr
                            exact ⟨'y', by decide,
                              ⟨['-', 'I', 'n', 'f', 'i', 'n', 'i', 't'], rfl⟩⟩
                          · cases hn : parseNum ('-' :: cs) with
                            | none => simp [hn] at h
                            | some p =>
                              obtain ⟨q, r2⟩ := p
                              simp only [hn] at h
                              simp only [Option.some.injEq, Prod.mk.injEq] at h
                              obtain ⟨-, hr⟩ := h
                              subst hr
                              obtain ⟨d, hd, hsuf⟩ := parseNum_suffix hn
                              exact ⟨d, by simp [endOKChar, hd], hsuf⟩
                        · rw [if_neg h9] at h
                          by_cases h10 : c.isDigit = true
                          · rw [if_pos h10] at h
                            cases hn : parseNum (c :: cs) with
                            | none => simp [hn] at h
                            | some p =>
                              obtain ⟨q, r2⟩ := p
                              simp only [hn] at h
                              simp only [Option.some.injEq, Prod.mk.injEq] at h
                              obtain ⟨-, hr⟩ := h
                              subst hr
                              obtain ⟨d, hd, hsuf⟩ := parseNum_suffix hn
                              exact ⟨d, by simp [endOKChar, hd], hsuf⟩
                          · rw [if_neg h10] at h
                            simp at h
    · -- parseObjBody
      intro l kvs r h
      rw [parseObjBody_succ_eq] at h
      split at h
      · simp only [Option.some.injEq, Prod.mk.injEq] at h
        obtain ⟨-, hr⟩ := h
        subst hr
        exact List.suffix_rfl
      · exact ihM _ _ _ h
    · -- parseMembers
      intro l kvs r h
      rw [parseMembers_succ_eq] at h
      split at h
      · rename_i cs
        cases hsb : parseStrBody f cs with
        | none => simp [hsb] at h
        | some p =>
          obtain ⟨key, r1⟩ := p
          simp only [hsb] at h
          have hr1cs : r1 <:+ cs := (List.suffix_cons '"' r1).trans (ihS _ _ _ hsb)
          split at h
          · rename_i r2 heq
            cases hv : parseValue f (skipWs r2) with
            | none => simp [hv] at h
            | some p2 =>
              obtain ⟨v0, r3⟩ := p2
              simp only [hv] at h
              obtain ⟨cv, -, hcv⟩ := ihV _ _ _ hv
              have hchain1 : r3 <:+ r1 :=
                ((((List.suffix_cons cv r3).trans hcv).trans
                  (skipWs_suffix r2)).trans (List.suffix_cons ':' r2)).trans
                  (heq ▸ skipWs_suffix r1)
              split at h
              · rename_i r4 heq2
                cases hm : parseMembers f (skipWs r4) with
                | none => simp [hm] at h
                | some p3 =>
                  obtain ⟨kvs5, r5⟩ := p3
                  simp only [hm] at h
                  simp only [Option.some.injEq, Prod.mk.injEq] at h
                  obtain ⟨-, hr⟩ := h
                  subst hr
                  have hx : ('}' :: r5) <:+ r3 :=
                    (((ihM _ _ _ hm).trans (skipWs_suffix r4)).trans
                      (List.suffix_cons ',' r4)).trans (heq2 ▸ skipWs_suffix r3)
                  exact ((hx.trans hchain1).trans hr1cs).trans (List.suffix_cons '"' cs)
              · rename_i r4 heq2
                simp only [Option.some.injEq, Prod.mk.injEq] at h
                obtain ⟨-, hr⟩ := h
                subst hr
                have hx : ('}' :: r4) <:+ r3 := heq2 ▸ skipWs_suffix r3
                exact ((hx.trans hchain1).trans hr1cs).trans (List.suffix_cons '"' cs)
              · simp at h
          · simp at h
      · simp at h
    · -- parseArrBody
      intro l xs r h
      rw [parseArrBody_succ_eq] at h
      split at h
      · simp only [Option.some.injEq, Prod.mk.injEq] at h
        obtain ⟨-, hr⟩ := h
        subst hr
        exact List.suffix_rfl
      · exact ihE _ _ _ h
    · -- parseElems
      intro l xs r h
      rw [parseElems_succ_eq] at h
      cases hv : parseValue f l with
      | none => simp [hv] at h
      | some p =>
        obtain ⟨v0, r1⟩ := p
        simp only [hv] at h
        obtain ⟨cv, -, hcv⟩ := ihV _ _ _ hv
        have hr1 : r1 <:+ l := (List.suffix_cons cv r1).trans hcv
        split at h
        · rename_i r2 heq
          cases he : parseElems f (skipWs r2) with
          | none => simp [he] at h
          | some p2 =>
            obtain ⟨xs3, r3⟩ := p2
            simp only [he] at h
            simp only [Option.some.injEq, Prod.mk.injEq] at h
            obtain ⟨-, hr⟩ := h
            subst hr
            exact ((((ihE _ _ _ he).trans (skipWs_suffix r2)).trans
              (List.suffix_cons ',' r2)).trans (heq ▸ skipWs_suffix r1)).trans hr1
        · rename_i r2 heq
          simp only [Option.some.injEq, Prod.mk.injEq] at h
          obtain ⟨-, hr⟩ := h
          subst hr
          exact (heq ▸ skipWs_suffix r1).trans hr1
        · simp at h
    · -- parseStrBody
      intro l s r h
      cases l with
      | nil => simp [parseStrBody] at h
      | cons c cs =>
        rw [parseStrBody_cons_eq] at h
        by_cases hq : c = '"'
        · rw [if_pos hq] at h
          subst hq
          simp only [Option.some.injEq, Prod.mk.injEq] at h
          obtain ⟨-, hr⟩ := h
          subst hr
          exact List.suffix_rfl
        · rw [if_neg hq] at h
          by_cases hbs : c = '\\'
          · rw [if_pos hbs] at h
            subst hbs
            split at h
            · rename_i a b g dd rest
              split at h
              · cases hsb : parseStrBody f rest with
                | none => simp [hsb] at h
                | some p =>
                  obtain ⟨s0, r0⟩ := p
                  simp only [hsb] at h
                  simp only [Option.some.injEq, Prod.mk.injEq] at h
                  obtain ⟨-, hr⟩ := h
                  subst hr
                  exact (ihS _ _ _ hsb).trans ⟨['\\', 'u', a, b, g, dd], rfl⟩
              · simp at h
            · rename_i e rest hnu
              split at h
              · cases hsb : parseStrBody f rest with
                | none => simp [hsb] at h
                | some p =>
                  obtain ⟨s0, r0⟩ := p
                  simp only [hsb] at h
                  simp only [Option.some.injEq, Prod.mk.injEq] at h
                  obtain ⟨-, hr⟩ := h
                  subst hr
                  exact (ihS _ _ _ hsb).trans ⟨['\\', e], rfl⟩
              · simp at h
            · simp at h
          · rw [if_neg hbs] at h
            by_cases hctl : c.toNat < 32
            · rw [if_pos hctl] at h
              simp at h
            · rw [if_neg hctl] at h
              cases hsb : parseStrBody f cs with
              | none => simp [hsb] at h
              | some p =>
                obtain ⟨s0, r0⟩ := p
                simp only [hsb] at h
                simp only [Option.some.injEq, Prod.mk.injEq] at h
                obtain ⟨-, hr⟩ := h
                subst hr
                exact (ihS _ _ _ hsb).trans (List.suffix_cons c cs)

/-! ## C9: normalization is idempotent on its own successful output -/

theorem loads_some_elim {t : List Char} {v : JVal} (h : loads t = some v) :
    ∃ rr, parseValue (8 * t.length + 8) (skipWs t) = some (v, rr) ∧ skipWs rr = [] := by
  unfold loads at h
  cases hp : parseValue (8 * t.length + 8) (skipWs t) with
  | none => simp [hp] at h
  | some p =>
    obtain ⟨v0, rr⟩ := p
    simp only [hp] at h
    by_cases hz : skipWs rr = []
    · rw [if_pos hz] at h
      simp only [Option.some.injEq] at h
      subst h
      exact ⟨rr, rfl, hz⟩
    · rw [if_neg hz] at h
      simp at h

theorem suffix_last_ws_contra {t rr : List Char} {d : Char}
    (hsuf : (d :: rr) <:+ t) (hrr : rr ≠ []) (hws : ∀ y ∈ rr, pyWs y = true)
    (hrd : t.rdropWhile pyWs = t) : False := by
  obtain ⟨u, hu⟩ := hsuf
  subst hu
  have h1 : (u ++ d :: rr) ≠ [] := by simp
  have h2 : (u ++ d :: rr).getLast h1 = rr.getLast hrr := by
    rw [List.getLast_append' u (d :: rr) (by simp)]
    exact List.getLast_cons hrr
  have h3 := ( List.rdropWhile_eq_self_iff).1 hrd h1
  rw [h2] at h3
  exact h3 (hws _ (List.getLast_mem hrr))

theorem loads_fixpoint_strip {t : List Char} {v : JVal}
    (hstrip : pyStrip t = t) (hl : loads t = some v) :
    stripFences t = t := by
  have hne : t ≠ [] := by
    rintro rfl
    rw [show loads ([] : List Char) = none from rfl] at hl
    exact absurd hl (by simp)
  obtain ⟨hdrop, hrdrop⟩ := pyStrip_eq_self_parts hstrip
  obtain ⟨c, cs, rfl⟩ : ∃ c cs, t = c :: cs := by
    cases t with
    | nil => exact absurd rfl hne
    | cons c cs => exact ⟨c, cs, rfl⟩
  have h0 := List.dropWhile_eq_self_iff.1 hdrop (by simp)
  have hc : pyWs c = false := by simpa using h0
  have hcj : jsonWs c = false := by
    cases hj : jsonWs c with
    | false => rfl
    | true =>
      have := jsonWs_pyWs hj
      rw [hc] at this
      exact absurd this (by simp)
  have hskip : skipWs (c :: cs) = c :: cs := by
    simp [skipWs, List.dropWhile_cons, hcj]
  obtain ⟨rr, hp, hz⟩ := loads_some_elim hl
  rw [hskip] at hp
  have hstart : starterChar c = true := parseValue_starter hp
  obtain ⟨d, hdOK, hdsuf⟩ := (parse_end_suffix (8 * (c :: cs).length + 8)).1 _ _ _ hp
  have hrrnil : rr = [] := by
    cases hx : rr with
    | nil => rfl
    | cons x xs =>
      exfalso
      have hws : ∀ y ∈ rr, pyWs y = true := by
        intro y hy
        exact jsonWs_pyWs (( List.dropWhile_eq_nil_iff).1 hz y hy)
      rw [hx] at hdsuf hws
      exact suffix_last_ws_contra hdsuf (by simp) hws hrdrop
  subst hrrnil
  have hpf : jsonFence.isPrefixOf (c :: cs) = false := by
    cases hb : jsonFence.isPrefixOf (c :: cs) with
    | false => rfl
    | true =>
      exfalso
      obtain ⟨k, hk⟩ := ( List.isPrefixOf_iff_prefix).1 hb
      have hjf : jsonFence = btick :: "``json".data := by decide
      rw [hjf, List.cons_append] at hk
      have hcb : btick = c := by injection hk
      rw [← hcb] at hstart
      exact absurd hstart (by decide)
  have hsf : fence3.isSuffixOf (c :: cs) = false := by
    cases hb : fence3.isSuffixOf (c :: cs) with
    | false => rfl
    | true =>
      exfalso
      obtain ⟨w, hw⟩ := ( List.isSuffixOf_iff_suffix).1 hb
      obtain ⟨u, hu⟩ := hdsuf
      have hd1 : (c :: cs).getLast? = some d := by
        rw [← hu]
        exact List.getLast?_concat _
      have hd2 : (c :: cs).getLast? = some btick := by
        rw [← hw]
        have hf3 : fence3 = [btick, btick] ++ [btick] := by decide
        rw [hf3, ← List.append_assoc]
        exact List.getLast?_concat _
      rw [hd1] at hd2
      have hdb : d = btick := Option.some.inj hd2
      rw [hdb] at hdOK
      exact absurd hdOK (by decide)
  have h1 : stripOpenFence (c :: cs) = c :: cs := by
    unfold stripOpenFence
    rw [hpf]
    simp
  have h2 : stripCloseFence (c :: cs) = c :: cs := by
    unfold stripCloseFence
    rw [hsf]
    simp
  unfold stripFences
  rw [h1, h2, hstrip]

/-- C9: when the normalizer succeeds on a raw text, its cleaned text is a
fixed point of the fence-stripping steps (a successfully parsed document
cannot start with the tagged fence or end with a bare fence, and it is
already stripped), so normalizing the already-clean text again parses to
the same structure. -/
theorem c9_normalize_idempotent (s : List Char) (v : JVal)
    (h : App.normalize s = .parsed v) :
    stripFences (stripFences s) = stripFences s ∧
    App.normalize (stripFences s) = .parsed v := by
  have hl : loads (stripFences s) = some v := by
    unfold App.normalize at h
    cases hx : loads (stripFences s) with
    | none => rw [hx] at h; simp at h
    | some w =>
      rw [hx] at h
      simp only [NormResult.parsed.injEq] at h
      rw [h]
  have hfix : stripFences (stripFences s) = stripFences s :=
    loads_fixpoint_strip (stripFences_pyStrip_fix s) hl
  refine ⟨hfix, ?_⟩
  unfold App.normalize
  rw [hfix, hl]

/-- Witness for C9 at a concrete fenced response that normalizes
successfully. -/
theorem c9_normalize_idempotent_witness :
    App.normalize ("```json\n\x7b\"ok\": true\x7d\n```".data) =
      .parsed (.obj [("ok".data, .bool true)]) ∧
    (stripFences (stripFences ("```json\n\x7b\"ok\": true\x7d\n```".data)) =
      stripFences ("```json\n\x7b\"ok\": true\x7d\n```".data) ∧
    App.normalize (stripFences ("```json\n\x7b\"ok\": true\x7d\n```".data)) =
      .parsed (.obj [("ok".data, .bool true)])) :=
  ⟨by decide, c9_normalize_idempotent _ _ (by decide)⟩
